import Mathlib

/-!
Verification of the adocag-server retrieval/rating/budget pipeline, search
aggregator, tiered cache, gap-analysis keyword selection, deep-research loop
and SSE event stream, as shallowly embedded from the Python sources
(src/services/search_utilities.py, src/services/cache_implementations.py,
src/services/agents.py, src/resources/chat.py,
src/services/azure_openai_service.py).
-/

namespace Adocag

/-! ## Retrieval-Rating-Budget pipeline (search_utilities.py)

One candidate record of `get_file_content_from_results` is abstracted by the
data that decides its fate in `_process_file_content`: whether the content
fetch succeeds (`fetchOk`), the content length (`len`), and the rating that
`rate_file_content` would return for it (`rating`).  The shared budget state
(`current_length` list-of-one and the `max_length_reached` event) is the only
state mutated by several concurrent workers; every mutation happens inside
the `length_lock` critical section, so an interleaving is fully described by
the order in which workers execute their shared-state actions: the
`max_length_reached.is_set()` reads (lines 216 and 243) and the atomic
admission section (lines 257-270). -/

/-- Abstraction of one search-result record entering the pipeline. -/
structure FileRec where
  fetchOk : Bool
  len : Nat
  rating : Int
deriving DecidableEq

/-- Shared-state actions of one per-record worker: a read of the
max-length-reached event, or the atomic budget-admission section with the
content length of the file. -/
inductive Act where
  | chk : Act
  | add : Nat → Act
deriving DecidableEq

/-- The shared budget of one pipeline call: `cur` models `current_length[0]`
and `exhausted` models `max_length_reached.is_set()`. -/
structure Budget where
  cur : Nat
  exhausted : Bool
deriving DecidableEq

/-- One worker: its remaining shared-state actions and, once it has been
admitted, the content length it contributed (`none` while not admitted). -/
structure WState where
  prog : List Act
  taken : Option Nat
deriving DecidableEq

/-- State of one pipeline call: the shared budget and all workers. -/
structure Sys where
  budget : Budget
  workers : List WState
deriving DecidableEq

/-- Whether a record passes the local (non-budget) gates of
`_process_file_content`: fetch succeeded (line 228), size at most 200000
(line 236), and, when rating is enabled, rating at least the threshold
(line 252). -/
def passes (withRating : Bool) (thr : Int) (r : FileRec) : Bool :=
  r.fetchOk && decide (r.len ≤ 200000) && (!withRating || decide (thr ≤ r.rating))

/-- The shared-state action list of a worker for record `r`, following
`_process_file_content`: the entry check (line 216) always runs; if the fetch
fails or the file exceeds 200000 characters the worker stops locally; the
second check (line 243) runs before rating; a rating below the threshold
stops the worker; otherwise the admission section runs with the content
length. -/
def workerProg (withRating : Bool) (thr : Int) (r : FileRec) : List Act :=
  if r.fetchOk && decide (r.len ≤ 200000) then
    if withRating && decide (r.rating < thr) then [Act.chk, Act.chk]
    else [Act.chk, Act.chk, Act.add r.len]
  else [Act.chk]

/-- The atomic budget-admission section (search_utilities.py lines 257-270):
under the lock, re-check the event; if the new total would exceed
`max_length`, set the event and drop; otherwise commit the length.  Returns
the new budget and whether the record was admitted. -/
def commitStep (maxLen : Nat) (len : Nat) (b : Budget) : Budget × Bool :=
  if b.exhausted then (b, false)
  else if maxLen < b.cur + len then ({ b with exhausted := true }, false)
  else ({ b with cur := b.cur + len }, true)

/-- Execute the next shared-state action of one worker.  A check aborts the
worker (it returns `None`) when the event is set, else it proceeds; the
admission section records the contribution on success and aborts the worker
on failure. -/
def stepWorker (maxLen : Nat) (b : Budget) (w : WState) : Budget × WState :=
  match w.prog with
  | [] => (b, w)
  | Act.chk :: rest =>
      if b.exhausted then (b, { w with prog := [] }) else (b, { w with prog := rest })
  | Act.add len :: rest =>
      match commitStep maxLen len b with
      | (b2, true) => (b2, { w with prog := rest, taken := some len })
      | (b2, false) => (b2, { w with prog := [] })

/-- One scheduler step: the worker at index `i` (if any) executes its next
shared-state action. -/
def sysStep (maxLen : Nat) (s : Sys) (i : Nat) : Sys :=
  match s.workers[i]? with
  | none => s
  | some w =>
      match stepWorker maxLen s.budget w with
      | (b2, w2) => { budget := b2, workers := s.workers.set i w2 }

/-- Run the pipeline under an arbitrary interleaving, given as the list of
scheduled worker indices. -/
def run (maxLen : Nat) (s : Sys) (sched : List Nat) : Sys :=
  sched.foldl (sysStep maxLen) s

/-- Initial state of one `get_file_content_from_results` call: budget zero,
event clear (lines 134-138), one worker per candidate record. -/
def initSys (withRating : Bool) (thr : Int) (recs : List FileRec) : Sys :=
  { budget := { cur := 0, exhausted := false },
    workers := recs.map (fun r => { prog := workerProg withRating thr r, taken := none }) }

/-- Contribution of a worker to the admitted total. -/
def takenVal (w : WState) : Nat := w.taken.getD 0

/-- Sum of the content lengths of all admitted records. -/
def takenSum (s : Sys) : Nat := (s.workers.map takenVal).sum

/-- Length carried by one pending action. -/
def actLen : Act → Nat
  | Act.chk => 0
  | Act.add l => l

/-- Length still claimable by the remaining actions of one worker. -/
def pendW (w : WState) : Nat := (w.prog.map actLen).sum

/-- Budget a record will claim if it passes all local gates, zero otherwise. -/
def passContrib (withRating : Bool) (thr : Int) (r : FileRec) : Nat :=
  if passes withRating thr r then r.len else 0

/-- Total budget demand of the records that pass all local gates. -/
def passSum (withRating : Bool) (thr : Int) (recs : List FileRec) : Nat :=
  (recs.map (passContrib withRating thr)).sum

/-- A worker program is well formed when an admission action can only be its
last action (as produced by `workerProg`). -/
def progOk : List Act → Bool
  | [] => true
  | Act.chk :: rest => progOk rest
  | Act.add _ :: rest => rest.isEmpty

/-- Well-formedness of a worker: while not admitted its program is well
formed; once admitted it has no action left. -/
def wfW (w : WState) : Prop :=
  (w.taken = none ∧ progOk w.prog = true) ∨ w.prog = []

/-- Per-worker invariant used for the membership proof: with the event never
set, a passing worker walks `[chk, chk, add]` down to `[]` and ends admitted
with its own length; a non-passing worker never owns an admission action and
is never admitted. -/
def memInv (withRating : Bool) (thr : Int) (r : FileRec) (w : WState) : Prop :=
  if passes withRating thr r then
    (w.taken = some r.len ∧ w.prog = []) ∨
    (w.taken = none ∧
      (w.prog = [Act.chk, Act.chk, Act.add r.len] ∨
       w.prog = [Act.chk, Act.add r.len] ∨
       w.prog = [Act.add r.len]))
  else
    w.taken = none ∧
      (w.prog = [Act.chk, Act.chk] ∨ w.prog = [Act.chk] ∨ w.prog = [])

/-- Global invariant of one pipeline call: the shared counter equals the sum
of the admitted lengths, it never exceeds the budget, and every worker is
well formed. -/
def sysInv (maxLen : Nat) (s : Sys) : Prop :=
  s.budget.cur = takenSum s ∧ s.budget.cur ≤ maxLen ∧ ∀ w ∈ s.workers, wfW w

/-- Global invariant for the membership analysis of a call whose passing
records fit the budget together: the event is never set, the counter equals
the admitted sum, and every worker satisfies its per-record invariant. -/
def memSysInv (withRating : Bool) (thr : Int) (recs : List FileRec) (s : Sys) : Prop :=
  s.budget.exhausted = false ∧ s.budget.cur = takenSum s ∧
  s.workers.length = recs.length ∧
  ∀ (i : Nat) (w : WState) (r : FileRec),
    s.workers[i]? = some w → recs[i]? = some r → memInv withRating thr r w

/-- Lengths of the records admitted by a finished run, in worker order. -/
def admittedLens (s : Sys) : List Nat :=
  s.workers.filterMap (fun w => w.taken)

/-- Observable outcome of `get_file_content_from_results`: the status flag
and the admitted content lengths (the code returns the admitted content
dictionaries sorted by content length descending; dropped records appear
nowhere in the result). -/
structure PipeResult where
  ok : Bool
  contents : List Nat
deriving DecidableEq

/-- Model of `get_file_content_from_results` (lines 111-198): an error result
when the upstream search failed or reported zero candidates (line 122);
otherwise the workers run under the given interleaving, the admitted contents
are sorted by length descending (line 187), and the final status is success
exactly when at least one content was admitted (line 190). -/
def pipelineCall (searchOk : Bool) (count : Nat) (maxLen : Nat) (withRating : Bool)
    (thr : Int) (recs : List FileRec) (sched : List Nat) : PipeResult :=
  if !searchOk || decide (count = 0) then { ok := false, contents := [] }
  else
    let s := run maxLen (initSys withRating thr recs) sched
    let cs := (admittedLens s).insertionSort (fun a b => b ≤ a)
    { ok := !cs.isEmpty, contents := cs }

/-- Model of `rate_file_content` (lines 279-324): the rating defaults to the
threshold; a cached rating is returned as is; with an agent, a parsed numeric
response is returned and a parse failure or agent exception yields 0; with no
agent the default is returned.  `agent = some (some n)` is a successful agent
call parsing to `n`; `agent = some none` is an agent or parse failure. -/
def rateFileContent (threshold : Int) (cached : Option Int)
    (agent : Option (Option Int)) : Int :=
  match cached with
  | some v => v
  | none =>
      match agent with
      | none => threshold
      | some (some n) => n
      | some none => 0

/-! ## Search aggregator (search_utilities.py, search_repositories) -/

/-- One combined search-result record, tagged with the query that produced it
(line 85). `matchCount` models `len(result.matches.get('content', []))`. -/
structure MatchRec where
  path : String
  matchCount : Nat
  searchQuery : String
deriving DecidableEq

/-- Whether `needle` matches at the start of `hay`. -/
def leadMatch : List Char → List Char → Bool
  | [], _ => true
  | _ :: _, [] => false
  | n :: ns, h :: hs => (n == h) && leadMatch ns hs

/-- Whether `needle` occurs as a contiguous run inside `hay`, modelling the
Python `in` operator on strings. -/
def occursIn (needle : List Char) : List Char → Bool
  | [] => needle.isEmpty
  | h :: hs => leadMatch needle (h :: hs) || occursIn needle hs

/-- Characters of a string, lowercased (model of the Python `lower()` calls
on query and path). -/
def lowerChars (s : String) : List Char := s.toList.map Char.toLower

/-- The path-priority test of `search_repositories` (lines 100-101): the
lowercased originating query is non-empty and occurs in the lowercased path. -/
def pathPriority (r : MatchRec) : Bool :=
  let q := lowerChars r.searchQuery
  !q.isEmpty && occursIn q (lowerChars r.path)

/-- Descending match-count comparison used by the primary sort (line 91). -/
def byMatchesDesc (a b : MatchRec) : Prop := b.matchCount ≤ a.matchCount

instance : DecidableRel byMatchesDesc :=
  fun a b => inferInstanceAs (Decidable (b.matchCount ≤ a.matchCount))

instance : IsTotal MatchRec byMatchesDesc :=
  ⟨fun a b => Nat.le_total b.matchCount a.matchCount⟩

instance : IsTrans MatchRec byMatchesDesc :=
  ⟨fun _ _ _ h1 h2 => le_trans h2 h1⟩

/-- Model of the result ordering of `search_repositories` (lines 88-107):
stable sort by match count descending, then one pass over the sorted list
appending each record to the path-matching or the other group, and the
concatenation of the two groups. -/
def sortCombinedResults (records : List MatchRec) : List MatchRec :=
  if records.isEmpty then records
  else
    let sorted := records.insertionSort byMatchesDesc
    let parts := sorted.foldl
      (fun (acc : List MatchRec × List MatchRec) r =>
        if pathPriority r then (acc.1 ++ [r], acc.2) else (acc.1, acc.2 ++ [r]))
      ([], [])
    parts.1 ++ parts.2

/-! ## Memory cache and tiered cache (cache_implementations.py)

`MemoryCache` keeps an `OrderedDict` from key to (value, expiry); we model it
as an association list whose front is the least recently used entry, with an
explicit current time `now` in place of `time.time()`.  Values are modelled
as naturals. -/

/-- State of `MemoryCache`: entries as (key, value, expiry) with expiry 0
meaning no expiry, front of the list least recently used. -/
structure MemCache where
  entries : List (String × Nat × Nat)
  maxItems : Nat
deriving DecidableEq

/-- Keys of the cache entries, least recently used first. -/
def keysOf (c : MemCache) : List String := c.entries.map (fun e => e.1)

/-- Remove every entry stored under `key` (an `OrderedDict` holds at most
one). -/
def eraseKey (l : List (String × Nat × Nat)) (key : String) :
    List (String × Nat × Nat) :=
  l.filter (fun e => !(e.1 == key))

/-- Expiry computed by `MemoryCache.set`: 0 when `ttl <= 0`, else now + ttl. -/
def expiryOf (now : Nat) (ttl : Int) : Nat :=
  if ttl ≤ 0 then 0 else now + ttl.toNat

/-- Model of `MemoryCache.get` (lines 42-52): on an unexpired hit move the
entry to the most-recently-used end and return the value; on an expired hit
delete the entry; otherwise return nothing. -/
def memGet (c : MemCache) (key : String) (now : Nat) : Option Nat × MemCache :=
  match c.entries.find? (fun e => e.1 == key) with
  | some (_, v, exp) =>
      if exp = 0 ∨ now < exp then
        (some v, { c with entries := eraseKey c.entries key ++ [(key, v, exp)] })
      else
        (none, { c with entries := eraseKey c.entries key })
  | none => (none, c)

/-- Model of `MemoryCache.set` (lines 54-75): an existing key is updated and
moved to the most-recently-used end; otherwise, when the item count has
reached `max_items`, the least recently used entry (front) is evicted, and
the new entry is appended. -/
def memSet (c : MemCache) (key : String) (v : Nat) (ttl : Int) (now : Nat) :
    Bool × MemCache :=
  if (c.entries.find? (fun e => e.1 == key)).isSome then
    (true, { c with entries := eraseKey c.entries key ++ [(key, v, expiryOf now ttl)] })
  else
    let base := if c.maxItems ≤ c.entries.length then c.entries.tail else c.entries
    (true, { c with entries := base ++ [(key, v, expiryOf now ttl)] })

/-- Model of `MemoryCache.exists` (lines 84-94): like `get` but returning a
flag; it promotes an unexpired entry and deletes an expired one. -/
def memExists (c : MemCache) (key : String) (now : Nat) : Bool × MemCache :=
  match c.entries.find? (fun e => e.1 == key) with
  | some (_, v, exp) =>
      if exp = 0 ∨ now < exp then
        (true, { c with entries := eraseKey c.entries key ++ [(key, v, exp)] })
      else
        (false, { c with entries := eraseKey c.entries key })
  | none => (false, c)

/-- Model of `MemoryCache.delete` (lines 77-82). -/
def memDelete (c : MemCache) (key : String) : Bool × MemCache :=
  if (c.entries.find? (fun e => e.1 == key)).isSome then
    (true, { c with entries := eraseKey c.entries key })
  else (false, c)

/-- TTL with the jitter applied by `TieredCache.set` (lines 191-193): for a
positive ttl, add the sampled jitter and floor at 1; the jitter sample is an
oracle parameter. -/
def jitterTtl (ttl jitter : Int) : Int :=
  if 0 < ttl then max 1 (ttl + jitter) else ttl

/-- Model of `TieredCache.set` (lines 188-202).  The durable tier is an
oracle: `none` when no Redis client is configured, `some (Except.ok b)` when
`RedisCache.set` returns `b`, and `some (Except.error ())` when the Redis
call raises; the code wraps the Redis call in no handler, so a raise
propagates after the local write already happened, and otherwise the call
returns the conjunction of the two outcomes. -/
def tieredSet (mem : MemCache) (key : String) (v : Nat) (ttl jitter : Int)
    (now : Nat) (redis : Option (Except Unit Bool)) : Except Unit Bool × MemCache :=
  let t := jitterTtl ttl jitter
  match memSet mem key v t now with
  | (localOk, mem2) =>
      match redis with
      | none => (Except.ok localOk, mem2)
      | some (Except.ok b) => (Except.ok (localOk && b), mem2)
      | some (Except.error e) => (Except.error e, mem2)

/-- Model of `TieredCache.delete` (lines 204-214): local delete always runs;
the call returns the disjunction of the two outcomes, and an uncaught Redis
raise propagates. -/
def tieredDelete (mem : MemCache) (key : String)
    (redis : Option (Except Unit Bool)) : Except Unit Bool × MemCache :=
  match memDelete mem key with
  | (localOk, mem2) =>
      match redis with
      | none => (Except.ok localOk, mem2)
      | some (Except.ok b) => (Except.ok (localOk || b), mem2)
      | some (Except.error e) => (Except.error e, mem2)

/-- Model of `TieredCache.get` (lines 170-186): a local hit returns at once;
otherwise the Redis result (when a client exists) is consulted, a hit being
written back into the local tier with the default ttl of 3600; an uncaught
Redis raise propagates. -/
def tieredGet (mem : MemCache) (key : String) (now : Nat)
    (redis : Option (Except Unit (Option Nat))) : Except Unit (Option Nat) × MemCache :=
  match memGet mem key now with
  | (some v, mem2) => (Except.ok (some v), mem2)
  | (none, mem2) =>
      match redis with
      | none => (Except.ok none, mem2)
      | some (Except.error e) => (Except.error e, mem2)
      | some (Except.ok none) => (Except.ok none, mem2)
      | some (Except.ok (some v)) => (Except.ok (some v), (memSet mem2 key v 3600 now).2)

/-- Model of `TieredCache.exists` (lines 216-226). -/
def tieredExists (mem : MemCache) (key : String) (now : Nat)
    (redis : Option (Except Unit Bool)) : Except Unit Bool × MemCache :=
  match memExists mem key now with
  | (true, mem2) => (Except.ok true, mem2)
  | (false, mem2) =>
      match redis with
      | none => (Except.ok false, mem2)
      | some (Except.ok b) => (Except.ok b, mem2)
      | some (Except.error e) => (Except.error e, mem2)

/-! ## Gap-analysis keyword selection (agents.py, quality_check) -/

/-- One gap-analysis candidate: keyword and relevance score. -/
structure KWItem where
  keyword : String
  relevance : Int
deriving DecidableEq

/-- Descending relevance comparison used by the selection sort. -/
def byRelevanceDesc (a b : KWItem) : Prop := b.relevance ≤ a.relevance

instance : DecidableRel byRelevanceDesc :=
  fun a b => inferInstanceAs (Decidable (b.relevance ≤ a.relevance))

instance : IsTotal KWItem byRelevanceDesc :=
  ⟨fun a b => Int.le_total b.relevance a.relevance⟩

instance : IsTrans KWItem byRelevanceDesc :=
  ⟨fun _ _ _ h1 h2 => le_trans h2 h1⟩

/-- Model of the selection in `AIAgent.quality_check` (lines 143-156): keep
candidates with relevance at least 8 whose keyword contains no space
character, sort them by relevance descending (Python `sorted` is stable), and
take the first `topN`. -/
def topRelevanceKeywords (results : List KWItem) (topN : Nat) : List KWItem :=
  let high := results.filter
    (fun i => decide (8 ≤ i.relevance) && !(i.keyword.toList.contains ' '))
  (high.insertionSort byRelevanceDesc).take topN

/-- Selection as worded by the spec, for comparison: it rejects keywords
containing any whitespace character, not only the space character. -/
def specTopRelevanceKeywords (results : List KWItem) (topN : Nat) : List KWItem :=
  let high := results.filter
    (fun i => decide (8 ≤ i.relevance) && !(i.keyword.toList.any Char.isWhitespace))
  (high.insertionSort byRelevanceDesc).take topN

/-! ## Deep-research iteration loop (chat.py, generate_deep_research_stream)

The loop state that the claims concern is the cumulative `keywords` set and
the per-iteration keyword proposals coming from `quality_check`.  The
proposals of each round are an oracle (they depend on LLM output); the loop
body skips already-visited keywords (lines 211-214), breaks when no proposals
arrived (line 187-194), and breaks when no search ran this round
(lines 244-251, `search_results_list` stays empty exactly when every proposal
was skipped). -/

/-- Keywords newly searched in one iteration, in proposal order: a proposal
already in the visited set (or already searched earlier in the same
iteration) is skipped. -/
def iterNew (visited : List String) (props : List String) : List String :=
  props.foldl (fun acc k => if k ∈ visited ∨ k ∈ acc then acc else acc ++ [k]) []

/-- The searched-keyword trace of the iteration loop: given the proposal
oracle for the successive rounds and the visited set, return every keyword
searched for the rest of the session, in order.  An empty proposal list or a
round in which every proposal is skipped terminates the loop. -/
def researchLoop : List (List String) → List String → List String
  | [], _ => []
  | props :: rest, visited =>
    if props.isEmpty then []
    else
      let ks := iterNew visited props
      if ks.isEmpty then [] else ks ++ researchLoop rest (visited ++ ks)

/-! ## SSE event stream (chat.py format_sse_response, azure_openai_service.py
stream_chat_async) -/

/-- Minimal JSON values for the emitted event records. -/
inductive JVal where
  | jstr : String → JVal
  | jbool : Bool → JVal
  | jobj : List (String × JVal) → JVal

/-- Field lookup in a JSON object. -/
def jGet : JVal → String → Option JVal
  | JVal.jobj fs, k => (fs.find? (fun p => p.1 == k)).map (fun p => p.2)
  | _, _ => none

/-- Lookup of a field under the `data` object of a record. -/
def dataField (r : JVal) (k : String) : Option JVal :=
  match jGet r "data" with
  | some d => jGet d k
  | none => none

/-- Model of `ChatResource.format_sse_response` (chat.py lines 32-43): an
object with `event` and a `data` object holding `content`, `message` and
`done`. -/
def formatSseResponse (event content message : String) (isDone : Bool) : JVal :=
  JVal.jobj [("event", JVal.jstr event),
    ("data", JVal.jobj [("content", JVal.jstr content),
      ("message", JVal.jstr message), ("done", JVal.jbool isDone)])]

/-- One content chunk of `stream_chat_async` (azure_openai_service.py lines
154-160): the `data` object holds only `content` and `done`. -/
def streamChunkRecord (content : String) : JVal :=
  JVal.jobj [("event", JVal.jstr "message"),
    ("data", JVal.jobj [("content", JVal.jstr content), ("done", JVal.jbool false)])]

/-- The final record of `stream_chat_async` (lines 163-169). -/
def streamFinalRecord : JVal :=
  JVal.jobj [("event", JVal.jstr "message"),
    ("data", JVal.jobj [("content", JVal.jstr ""), ("done", JVal.jbool true)])]

/-- The error record of `stream_chat_async` (lines 172-178). -/
def streamErrorRecord (e : String) : JVal :=
  JVal.jobj [("event", JVal.jstr "error"),
    ("data", JVal.jobj [("content", JVal.jstr e), ("done", JVal.jbool true)])]

/-- Model of `stream_chat_async`: the emitted chunk contents followed by the
final done record, or, when the call raises after some chunks, by the error
record (both carry `done = true`). -/
def streamChatAsync (chunks : List String) (err : Option String) : List JVal :=
  match err with
  | none => chunks.map streamChunkRecord ++ [streamFinalRecord]
  | some e => chunks.map streamChunkRecord ++ [streamErrorRecord e]

/-- Model of the event stream produced by `generate_deep_research_stream`
(chat.py lines 130-279): every progress record is emitted through
`format_sse_response` with event `processing`, empty content and `is_done`
left `False`; the terminal answer is streamed through `stream_chat_async`. -/
def deepResearchStream (progressMsgs : List String) (chunks : List String)
    (err : Option String) : List JVal :=
  progressMsgs.map (fun m => formatSseResponse "processing" "" m false)
    ++ streamChatAsync chunks err

/-! ## Helper lemmas about the pipeline state machine -/

theorem sum_map_set (f : WState → Nat) :
    ∀ (l : List WState) (i : Nat) (w w2 : WState), l[i]? = some w →
      ((l.set i w2).map f).sum + f w = (l.map f).sum + f w2 := by
  intro l
  induction l with
  | nil => intro i w w2 h; simp at h
  | cons x xs ih =>
    intro i w w2 h
    cases i with
    | zero =>
      simp only [List.getElem?_cons_zero, Option.some.injEq] at h
      subst h
      simp only [List.set_cons_zero, List.map_cons, List.sum_cons]
      omega
    | succ n =>
      simp only [List.getElem?_cons_succ] at h
      have := ih n w w2 h
      simp only [List.set_cons_succ, List.map_cons, List.sum_cons]
      omega

theorem takenSum_workers (b : Budget) (ws : List WState) :
    takenSum { budget := b, workers := ws } = (ws.map takenVal).sum := rfl

theorem sysStep_eq (maxLen : Nat) (s : Sys) (i : Nat) (w : WState)
    (hget : s.workers[i]? = some w) :
    sysStep maxLen s i =
      { budget := (stepWorker maxLen s.budget w).1,
        workers := s.workers.set i (stepWorker maxLen s.budget w).2 } := by
  unfold sysStep
  rw [hget]

theorem sysInv_of_parts (maxLen : Nat) (b : Budget) (ws : List WState)
    (h1 : b.cur = (ws.map takenVal).sum) (h2 : b.cur ≤ maxLen)
    (h3 : ∀ w ∈ ws, wfW w) : sysInv maxLen { budget := b, workers := ws } :=
  ⟨h1, h2, h3⟩

theorem sysInv_step (maxLen : Nat) (s : Sys) (i : Nat) (h : sysInv maxLen s) :
    sysInv maxLen (sysStep maxLen s i) := by
  obtain ⟨hcur, hle, hwf⟩ := h
  cases hget : s.workers[i]? with
  | none =>
    unfold sysStep
    rw [hget]
    exact ⟨hcur, hle, hwf⟩
  | some w =>
    rw [sysStep_eq maxLen s i w hget]
    have hwmem : w ∈ s.workers := List.getElem?_mem hget
    have hwfw : wfW w := hwf w hwmem
    have hmemset : ∀ (w2 : WState), wfW w2 →
        ∀ w3 ∈ s.workers.set i w2, wfW w3 := by
      intro w2 h2 w3 h3
      rcases List.mem_or_eq_of_mem_set h3 with h4 | h4
      · exact hwf w3 h4
      · exact h4 ▸ h2
    unfold takenSum at hcur
    obtain ⟨prog, taken⟩ := w
    cases prog with
    | nil =>
      have hstep : stepWorker maxLen s.budget ⟨[], taken⟩ =
          (s.budget, ⟨[], taken⟩) := rfl
      rw [hstep]
      dsimp only
      refine sysInv_of_parts _ _ _ ?_ hle (hmemset _ hwfw)
      have hs := sum_map_set takenVal s.workers i ⟨[], taken⟩ ⟨[], taken⟩ hget
      omega
    | cons a rest =>
      have hleft : taken = none ∧ progOk (a :: rest) = true := by
        rcases hwfw with h1 | h1
        · exact h1
        · simp at h1
      cases a with
      | chk =>
        by_cases hex : s.budget.exhausted = true
        · have hstep : stepWorker maxLen s.budget ⟨Act.chk :: rest, taken⟩ =
              (s.budget, ⟨[], taken⟩) := by
            simp [stepWorker, hex]
          rw [hstep]
          dsimp only
          refine sysInv_of_parts _ _ _ ?_ hle (hmemset _ (Or.inr rfl))
          have hs := sum_map_set takenVal s.workers i ⟨Act.chk :: rest, taken⟩
            ⟨[], taken⟩ hget
          simp only [takenVal] at hs ⊢
          omega
        · have hstep : stepWorker maxLen s.budget ⟨Act.chk :: rest, taken⟩ =
              (s.budget, ⟨rest, taken⟩) := by
            simp [stepWorker, hex]
          rw [hstep]
          dsimp only
          have hok : progOk rest = true := by
            have := hleft.2
            simpa [progOk] using this
          refine sysInv_of_parts _ _ _ ?_ hle (hmemset _ (Or.inl ⟨hleft.1, hok⟩))
          have hs := sum_map_set takenVal s.workers i ⟨Act.chk :: rest, taken⟩
            ⟨rest, taken⟩ hget
          simp only [takenVal] at hs ⊢
          omega
      | add len =>
        have hrest : rest = [] := by
          have := hleft.2
          simpa [progOk, List.isEmpty_iff] using this
        subst hrest
        have htk : taken = none := hleft.1
        subst htk
        by_cases hex : s.budget.exhausted = true
        · have hstep : stepWorker maxLen s.budget ⟨[Act.add len], none⟩ =
              (s.budget, ⟨[], none⟩) := by
            simp [stepWorker, commitStep, hex]
          rw [hstep]
          dsimp only
          refine sysInv_of_parts _ _ _ ?_ hle (hmemset _ (Or.inr rfl))
          have hs := sum_map_set takenVal s.workers i ⟨[Act.add len], none⟩
            ⟨[], none⟩ hget
          simp only [takenVal] at hs ⊢
          omega
        · by_cases hlt : maxLen < s.budget.cur + len
          · have hstep : stepWorker maxLen s.budget ⟨[Act.add len], none⟩ =
                ({ cur := s.budget.cur, exhausted := true }, ⟨[], none⟩) := by
              simp [stepWorker, commitStep, hex, hlt]
            rw [hstep]
            dsimp only
            refine sysInv_of_parts _ _ _ ?_ hle (hmemset _ (Or.inr rfl))
            have hs := sum_map_set takenVal s.workers i ⟨[Act.add len], none⟩
              ⟨[], none⟩ hget
            simp only [takenVal] at hs ⊢
            omega
          · have hstep : stepWorker maxLen s.budget ⟨[Act.add len], none⟩ =
                ({ cur := s.budget.cur + len, exhausted := s.budget.exhausted },
                  ⟨[], some len⟩) := by
              simp [stepWorker, commitStep, hex, hlt]
            rw [hstep]
            dsimp only
            refine sysInv_of_parts _ _ _ ?_ ?_ (hmemset _ (Or.inr rfl))
            · have hs := sum_map_set takenVal s.workers i ⟨[Act.add len], none⟩
                ⟨[], some len⟩ hget
              simp only [takenVal, Option.getD] at hs ⊢
              omega
            · simp only []
              omega

theorem sysInv_run (maxLen : Nat) (s : Sys) (sched : List Nat)
    (h : sysInv maxLen s) : sysInv maxLen (run maxLen s sched) := by
  induction sched generalizing s with
  | nil => exact h
  | cons j js ih =>
    simp only [run, List.foldl_cons]
    exact ih _ (sysInv_step maxLen s j h)

theorem sysInv_init (maxLen : Nat) (wr : Bool) (thr : Int) (recs : List FileRec) :
    sysInv maxLen (initSys wr thr recs) := by
  refine ⟨?_, Nat.zero_le _, ?_⟩
  · unfold initSys takenSum
    simp only []
    symm
    apply List.sum_eq_zero
    intro x hx
    rw [List.map_map, List.mem_map] at hx
    obtain ⟨r, _, hr⟩ := hx
    simp [takenVal] at hr
    omega
  · intro w hw
    unfold initSys at hw
    simp only [List.mem_map] at hw
    obtain ⟨r, _, hr⟩ := hw
    refine Or.inl ⟨?_, ?_⟩
    · rw [← hr]
    · rw [← hr]
      simp only []
      unfold workerProg
      split
      · split
        · rfl
        · rfl
      · rfl

theorem exhausted_step (maxLen : Nat) (s : Sys) (i : Nat)
    (h : s.budget.exhausted = true) :
    (sysStep maxLen s i).budget.exhausted = true := by
  unfold sysStep
  cases hget : s.workers[i]? with
  | none => exact h
  | some w =>
    obtain ⟨prog, taken⟩ := w
    cases prog with
    | nil => simpa [stepWorker] using h
    | cons a rest =>
      cases a with
      | chk => simp [stepWorker, h]
      | add len => simp [stepWorker, commitStep, h]

theorem exhausted_run (maxLen : Nat) (s : Sys) (sched : List Nat)
    (h : s.budget.exhausted = true) :
    (run maxLen s sched).budget.exhausted = true := by
  induction sched generalizing s with
  | nil => exact h
  | cons j js ih =>
    simp only [run, List.foldl_cons]
    exact ih _ (exhausted_step maxLen s j h)

/-- C1: within one `get_file_content_from_results` call, for every
interleaving of the per-record workers (every schedule of their shared-state
actions), the sum of the content lengths of the admitted results never
exceeds `max_length`; and once the shared `max_length_reached` event is set
it is never cleared for the remainder of the call. -/
theorem budget_invariant_c1 :
    (∀ (maxLen : Nat) (withRating : Bool) (thr : Int) (recs : List FileRec)
        (sched : List Nat),
        takenSum (run maxLen (initSys withRating thr recs) sched) ≤ maxLen) ∧
    (∀ (maxLen : Nat) (s : Sys) (sched : List Nat),
        s.budget.exhausted = true → (run maxLen s sched).budget.exhausted = true) := by
  constructor
  · intro maxLen wr thr recs sched
    have h := sysInv_run maxLen _ sched (sysInv_init maxLen wr thr recs)
    obtain ⟨h1, h2, _⟩ := h
    omega
  · intro maxLen s sched h
    exact exhausted_run maxLen s sched h

/-- Witness for C1 at a concrete call: one admissible record under budget
100, and a state with the event already set stays set. -/
theorem budget_invariant_c1_witness :
    takenSum (run 100 (initSys true 7 [FileRec.mk true 10 9]) [0, 0, 0]) ≤ 100 ∧
    (run 100 (Sys.mk (Budget.mk 0 true) []) [0]).budget.exhausted = true :=
  ⟨budget_invariant_c1.1 100 true 7 [FileRec.mk true 10 9] [0, 0, 0],
   budget_invariant_c1.2 100 (Sys.mk (Budget.mk 0 true) []) [0] rfl⟩

theorem workerProg_eq (wr : Bool) (thr : Int) (r : FileRec) :
    workerProg wr thr r =
      if passes wr thr r then [Act.chk, Act.chk, Act.add r.len]
      else if r.fetchOk && decide (r.len ≤ 200000) then [Act.chk, Act.chk]
      else [Act.chk] := by
  unfold workerProg passes
  by_cases h1 : (r.fetchOk && decide (r.len ≤ 200000)) = true
  · rcases le_or_lt thr r.rating with h2 | h2
    · have d1 : decide (thr ≤ r.rating) = true := by simpa using h2
      have d2 : decide (r.rating < thr) = false := by simpa using not_lt.mpr h2
      cases wr <;> simp [h1, d1, d2]
    · have d1 : decide (thr ≤ r.rating) = false := by simpa using not_le.mpr h2
      have d2 : decide (r.rating < thr) = true := by simpa using h2
      cases wr <;> simp [h1, d1, d2]
  · have h1f : (r.fetchOk && decide (r.len ≤ 200000)) = false := by
      simpa using h1
    simp [h1f]

/-- C10: with no rating collaborator configured and no cached rating,
`rate_file_content` returns exactly the rating threshold; consequently a
pipeline call with rating enabled whose ratings all come from that default
behaves identically to the same call with rating disabled, so no fetched,
size-valid record is ever dropped by the rating check. -/
theorem implicit_default_rating_c10 :
    (∀ thr : Int, rateFileContent thr none none = thr) ∧
    (∀ (maxLen : Nat) (thr : Int) (recs : List FileRec) (sched : List Nat),
        run maxLen (initSys true thr
          (recs.map (fun r => { r with rating := rateFileContent thr none none }))) sched =
        run maxLen (initSys false thr
          (recs.map (fun r => { r with rating := rateFileContent thr none none }))) sched) := by
  constructor
  · intro thr; rfl
  · intro maxLen thr recs sched
    have hinit : initSys true thr
        (recs.map (fun r => { r with rating := rateFileContent thr none none })) =
        initSys false thr
          (recs.map (fun r => { r with rating := rateFileContent thr none none })) := by
      unfold initSys
      congr 1
      apply List.map_congr_left
      intro r hr
      rw [List.mem_map] at hr
      obtain ⟨r0, _, rfl⟩ := hr
      have hp : workerProg true thr { r0 with rating := rateFileContent thr none none } =
          workerProg false thr { r0 with rating := rateFileContent thr none none } := by
        unfold workerProg rateFileContent
        have d2 : decide (thr < thr) = false := by simp
        simp [d2]
      rw [hp]
    rw [hinit]

theorem memInv_sum (wr : Bool) (thr : Int) :
    ∀ (ws : List WState) (recs : List FileRec), ws.length = recs.length →
    (∀ (i : Nat) (w : WState) (r : FileRec), ws[i]? = some w → recs[i]? = some r →
      memInv wr thr r w) →
    (ws.map takenVal).sum + (ws.map pendW).sum = passSum wr thr recs := by
  intro ws
  induction ws with
  | nil =>
    intro recs hlen _
    cases recs with
    | nil => simp [passSum]
    | cons r rs => simp at hlen
  | cons w ws2 ih =>
    intro recs hlen hinv
    cases recs with
    | nil => simp at hlen
    | cons r rs =>
      have hlen2 : ws2.length = rs.length := by simpa using hlen
      have htail : ∀ (i : Nat) (w2 : WState) (r2 : FileRec), ws2[i]? = some w2 →
          rs[i]? = some r2 → memInv wr thr r2 w2 := by
        intro i w2 r2 h1 h2
        exact hinv (i + 1) w2 r2 (by simpa using h1) (by simpa using h2)
      have hhead : memInv wr thr r w := hinv 0 w r (by simp) (by simp)
      have hpoint : takenVal w + pendW w = passContrib wr thr r := by
        unfold memInv at hhead
        unfold passContrib
        by_cases hp : passes wr thr r = true
        · rw [if_pos hp] at hhead
          rw [if_pos hp]
          rcases hhead with ⟨h1, h2⟩ | ⟨h1, h2⟩
          · simp [takenVal, pendW, h1, h2]
          · rcases h2 with h2 | h2 | h2 <;>
              simp [takenVal, pendW, actLen, h1, h2]
        · rw [if_neg hp] at hhead
          rw [if_neg hp]
          obtain ⟨h1, h2⟩ := hhead
          rcases h2 with h2 | h2 | h2 <;>
            simp [takenVal, pendW, actLen, h1, h2]
      have hrest := ih rs hlen2 htail
      unfold passSum at hrest ⊢
      simp only [List.map_cons, List.sum_cons]
      omega

theorem memSysInv_init (wr : Bool) (thr : Int) (recs : List FileRec) :
    memSysInv wr thr recs (initSys wr thr recs) := by
  refine ⟨rfl, ?_, by simp [initSys], ?_⟩
  · show (0 : Nat) = takenSum (initSys wr thr recs)
    unfold initSys takenSum
    symm
    apply List.sum_eq_zero
    intro x hx
    rw [List.map_map, List.mem_map] at hx
    obtain ⟨r, _, hr⟩ := hx
    simp [takenVal] at hr
    omega
  · intro i w r hw hr
    unfold initSys at hw
    simp only [] at hw
    rw [List.getElem?_map, hr] at hw
    simp only [Option.map_some'] at hw
    obtain rfl := Option.some.inj hw
    unfold memInv
    by_cases hp : passes wr thr r = true
    · rw [if_pos hp]
      refine Or.inr ⟨rfl, Or.inl ?_⟩
      show workerProg wr thr r = _
      rw [workerProg_eq, if_pos hp]
    · rw [if_neg hp]
      refine ⟨rfl, ?_⟩
      show workerProg wr thr r = [Act.chk, Act.chk] ∨
        workerProg wr thr r = [Act.chk] ∨ workerProg wr thr r = []
      rw [workerProg_eq, if_neg hp]
      by_cases h1 : (r.fetchOk && decide (r.len ≤ 200000)) = true
      · rw [if_pos h1]; exact Or.inl rfl
      · rw [if_neg h1]; exact Or.inr (Or.inl rfl)

theorem memSysInv_step (wr : Bool) (thr : Int) (recs : List FileRec) (maxLen : Nat)
    (hB : passSum wr thr recs ≤ maxLen) (s : Sys) (i : Nat)
    (h : memSysInv wr thr recs s) : memSysInv wr thr recs (sysStep maxLen s i) := by
  obtain ⟨hex, hcur, hlen, hinv⟩ := h
  cases hget : s.workers[i]? with
  | none =>
    unfold sysStep
    rw [hget]
    exact ⟨hex, hcur, hlen, hinv⟩
  | some w =>
    rw [sysStep_eq maxLen s i w hget]
    have hi : i < s.workers.length := by
      rcases List.getElem?_eq_some.mp hget with ⟨h1, _⟩
      exact h1
    have hir : i < recs.length := by omega
    have hr : recs[i]? = some recs[i] := List.getElem?_eq_getElem hir
    have hw : memInv wr thr recs[i] w := hinv i w recs[i] hget hr
    have hindex : ∀ (w2 : WState), memInv wr thr recs[i] w2 →
        ∀ (j : Nat) (w3 : WState) (r3 : FileRec),
          (s.workers.set i w2)[j]? = some w3 → recs[j]? = some r3 →
          memInv wr thr r3 w3 := by
      intro w2 h2 j w3 r3 h3 h4
      rw [List.getElem?_set] at h3
      by_cases hij : i = j
      · rw [if_pos hij, if_pos (hij ▸ hi)] at h3
        obtain rfl := Option.some.inj h3
        subst hij
        have : r3 = recs[i] := by
          rw [hr] at h4
          exact (Option.some.inj h4).symm
        rw [this]
        exact h2
      · rw [if_neg hij] at h3
        exact hinv j w3 r3 h3 h4
    have hfin : ∀ (w2 : WState), takenVal w2 = takenVal w →
        memInv wr thr recs[i] w2 →
        memSysInv wr thr recs
          { budget := s.budget, workers := s.workers.set i w2 } := by
      intro w2 htv h2
      refine ⟨hex, ?_, ?_, hindex w2 h2⟩
      · rw [takenSum_workers]
        dsimp only
        have hs := sum_map_set takenVal s.workers i w w2 hget
        unfold takenSum at hcur
        omega
      · simp only [List.length_set]
        exact hlen
    obtain ⟨prog, tk⟩ := w
    unfold memInv at hw
    by_cases hp : passes wr thr recs[i] = true
    · rw [if_pos hp] at hw
      rcases hw with ⟨htk, hpr⟩ | ⟨htk, hpr⟩
      · -- already admitted, nothing left to run
        simp only [] at htk hpr
        subst htk
        subst hpr
        have hstep : stepWorker maxLen s.budget ⟨[], some (recs[i]).len⟩ =
            (s.budget, ⟨[], some (recs[i]).len⟩) := rfl
        rw [hstep]
        refine hfin _ rfl ?_
        rw [memInv, if_pos hp]
        exact Or.inl ⟨rfl, rfl⟩
      · simp only [] at htk hpr
        subst htk
        rcases hpr with hpr | hpr | hpr
        · subst hpr
          have hstep : stepWorker maxLen s.budget
              ⟨[Act.chk, Act.chk, Act.add (recs[i]).len], none⟩ =
              (s.budget, ⟨[Act.chk, Act.add (recs[i]).len], none⟩) := by
            simp [stepWorker, hex]
          rw [hstep]
          refine hfin _ rfl ?_
          rw [memInv, if_pos hp]
          exact Or.inr ⟨rfl, Or.inr (Or.inl rfl)⟩
        · subst hpr
          have hstep : stepWorker maxLen s.budget
              ⟨[Act.chk, Act.add (recs[i]).len], none⟩ =
              (s.budget, ⟨[Act.add (recs[i]).len], none⟩) := by
            simp [stepWorker, hex]
          rw [hstep]
          refine hfin _ rfl ?_
          rw [memInv, if_pos hp]
          exact Or.inr ⟨rfl, Or.inr (Or.inr rfl)⟩
        · subst hpr
          -- the admission step: it always succeeds under the fit hypothesis
          have hsum := memInv_sum wr thr s.workers recs hlen hinv
          have hwmem : (⟨[Act.add (recs[i]).len], none⟩ : WState) ∈ s.workers :=
            List.getElem?_mem hget
          have hple : pendW ⟨[Act.add (recs[i]).len], none⟩ ≤
              (s.workers.map pendW).sum :=
            List.single_le_sum (fun x _ => Nat.zero_le x) _
              (List.mem_map.mpr ⟨_, hwmem, rfl⟩)
          have hpw : pendW ⟨[Act.add (recs[i]).len], none⟩ = (recs[i]).len := by
            simp [pendW, actLen]
          have hnlt : ¬ maxLen < s.budget.cur + (recs[i]).len := by
            unfold takenSum at hcur
            omega
          have hstep : stepWorker maxLen s.budget
              ⟨[Act.add (recs[i]).len], none⟩ =
              ({ cur := s.budget.cur + (recs[i]).len,
                 exhausted := s.budget.exhausted },
               ⟨[], some (recs[i]).len⟩) := by
            simp [stepWorker, commitStep, hex, hnlt]
          rw [hstep]
          refine ⟨hex, ?_, ?_, hindex _ ?_⟩
          · rw [takenSum_workers]
            dsimp only
            have hs := sum_map_set takenVal s.workers i
              ⟨[Act.add (recs[i]).len], none⟩ ⟨[], some (recs[i]).len⟩ hget
            unfold takenSum at hcur
            simp only [takenVal, Option.getD] at hs ⊢
            omega
          · simp only [List.length_set]
            exact hlen
          · rw [memInv, if_pos hp]
            exact Or.inl ⟨rfl, rfl⟩
    · rw [if_neg hp] at hw
      obtain ⟨htk, hpr⟩ := hw
      simp only [] at htk hpr
      subst htk
      rcases hpr with hpr | hpr | hpr
      · subst hpr
        have hstep : stepWorker maxLen s.budget ⟨[Act.chk, Act.chk], none⟩ =
            (s.budget, ⟨[Act.chk], none⟩) := by
          simp [stepWorker, hex]
        rw [hstep]
        refine hfin _ rfl ?_
        rw [memInv, if_neg hp]
        exact ⟨rfl, Or.inr (Or.inl rfl)⟩
      · subst hpr
        have hstep : stepWorker maxLen s.budget ⟨[Act.chk], none⟩ =
            (s.budget, ⟨[], none⟩) := by
          simp [stepWorker, hex]
        rw [hstep]
        refine hfin _ rfl ?_
        rw [memInv, if_neg hp]
        exact ⟨rfl, Or.inr (Or.inr rfl)⟩
      · subst hpr
        have hstep : stepWorker maxLen s.budget ⟨[], none⟩ =
            (s.budget, ⟨[], none⟩) := rfl
        rw [hstep]
        refine hfin _ rfl ?_
        rw [memInv, if_neg hp]
        exact ⟨rfl, Or.inr (Or.inr rfl)⟩

theorem memSysInv_run (wr : Bool) (thr : Int) (recs : List FileRec) (maxLen : Nat)
    (hB : passSum wr thr recs ≤ maxLen) (s : Sys) (sched : List Nat)
    (h : memSysInv wr thr recs s) : memSysInv wr thr recs (run maxLen s sched) := by
  induction sched generalizing s with
  | nil => exact h
  | cons j js ih =>
    simp only [run, List.foldl_cons]
    exact ih _ (memSysInv_step wr thr recs maxLen hB s j h)

/-- C2 (amended): with rating enabled, provided the passing records together
fit within `max_length` and the schedule runs every worker to completion, a
record is admitted if and only if its fetch succeeded, its length is at most
200000 and its rating reaches the threshold; its admitted contribution is
exactly its content length. -/
theorem rating_membership_c2 (maxLen : Nat) (thr : Int) (recs : List FileRec)
    (sched : List Nat) (hB : passSum true thr recs ≤ maxLen)
    (hdone : ∀ w ∈ (run maxLen (initSys true thr recs) sched).workers, w.prog = []) :
    ∀ (i : Nat) (r : FileRec) (w : WState), recs[i]? = some r →
      (run maxLen (initSys true thr recs) sched).workers[i]? = some w →
      w.taken = if passes true thr r then some r.len else none := by
  obtain ⟨_, _, _, hinv⟩ :=
    memSysInv_run true thr recs maxLen hB _ sched (memSysInv_init true thr recs)
  intro i r w hr hw
  have hm := hinv i w r hw hr
  have hpe : w.prog = [] := hdone w (List.getElem?_mem hw)
  unfold memInv at hm
  by_cases hp : passes true thr r = true
  · rw [if_pos hp] at hm
    rw [if_pos hp]
    rcases hm with ⟨h1, _⟩ | ⟨_, h2⟩
    · exact h1
    · rcases h2 with h2 | h2 | h2 <;> (rw [hpe] at h2; cases h2)
  · rw [if_neg hp] at hm
    rw [if_neg hp]
    exact hm.1

/-- C2 counterexample to the claim as stated: with `max_length = 5`, a record
whose fetch succeeded, whose length 10 is at most 200000 and whose rating 9
reaches the threshold 7 is still absent from the output of a completed run,
because budget admission rejected it; the whole pipeline call even reports an
error. -/
theorem rating_membership_c2_counterexample :
    passes true 7 (FileRec.mk true 10 9) = true ∧
    (∀ w ∈ (run 5 (initSys true 7 [FileRec.mk true 10 9]) [0, 0, 0]).workers,
      w.prog = []) ∧
    (run 5 (initSys true 7 [FileRec.mk true 10 9]) [0, 0, 0]).workers.map
      (fun w => w.taken) = [none] ∧
    pipelineCall true 1 5 true 7 [FileRec.mk true 10 9] [0, 0, 0] =
      { ok := false, contents := [] } := by
  refine ⟨by decide, by decide, by decide, by decide⟩

/-- Witness for C2 at a concrete completed call: budget 100, one passing and
one fetch-failing record; the passing record is admitted with its length. -/
theorem rating_membership_c2_witness :
    WState.taken ⟨[], some 10⟩ =
      if passes true 7 (FileRec.mk true 10 9) then some (FileRec.mk true 10 9).len
      else none :=
  rating_membership_c2 100 7 [FileRec.mk true 10 9, FileRec.mk false 3 9]
    [0, 0, 0, 1] (by decide) (by decide) 0 (FileRec.mk true 10 9) ⟨[], some 10⟩
    (by decide) (by decide)

/-- C4 counterexample to the claim as stated: a successful upstream search
with one candidate record whose content fetch fails makes the pipeline call
itself return an error (the code reports an error whenever no content at all
was admitted), not a success. -/
theorem pipeline_failure_c4_counterexample :
    pipelineCall true 1 100 true 7 [FileRec.mk false 5 9] [0] =
      { ok := false, contents := [] } := by decide

/-- C4 (amended): the pipeline call fails exactly when the upstream search
failed, or reported zero candidates, or no record at all was admitted; a
dropped record is otherwise silent, the result listing exactly the admitted
contents (a permutation of the admitted lengths, sorted descending by the
code). -/
theorem pipeline_failure_c4 (searchOk : Bool) (count maxLen : Nat) (wr : Bool)
    (thr : Int) (recs : List FileRec) (sched : List Nat) :
    ((pipelineCall searchOk count maxLen wr thr recs sched).ok = true ↔
      (searchOk = true ∧ count ≠ 0 ∧
        admittedLens (run maxLen (initSys wr thr recs) sched) ≠ [])) ∧
    (pipelineCall searchOk count maxLen wr thr recs sched).contents.Perm
      (if searchOk && !(decide (count = 0)) then
        admittedLens (run maxLen (initSys wr thr recs) sched) else []) := by
  by_cases hs : (!searchOk || decide (count = 0)) = true
  · have hres : pipelineCall searchOk count maxLen wr thr recs sched =
        { ok := false, contents := [] } := by
      unfold pipelineCall
      rw [if_pos hs]
    rw [hres]
    have hcases : searchOk = false ∨ count = 0 := by
      rcases Bool.or_eq_true_iff.mp hs with h | h
      · left; simpa using h
      · right; simpa using h
    constructor
    · constructor
      · intro h; cases h
      · rintro ⟨h1, h2, _⟩
        exfalso
        rcases hcases with h | h
        · rw [h1] at h; simp at h
        · exact h2 h
    · have hcond : (searchOk && !(decide (count = 0))) = false := by
        rcases hcases with h | h <;> simp [h]
      rw [hcond]
      simp
  · have hok : searchOk = true := by
      rcases Bool.not_eq_true _ ▸ hs with _
      cases hso : searchOk
      · rw [hso] at hs; simp at hs
      · rfl
    have hcount : count ≠ 0 := by
      intro h
      rw [h] at hs
      simp at hs
    have hres : pipelineCall searchOk count maxLen wr thr recs sched =
        { ok := !((admittedLens (run maxLen (initSys wr thr recs) sched)).insertionSort
            (fun a b => b ≤ a)).isEmpty,
          contents := (admittedLens (run maxLen (initSys wr thr recs) sched)).insertionSort
            (fun a b => b ≤ a) } := by
      unfold pipelineCall
      rw [if_neg hs]
    rw [hres]
    have hperm : ((admittedLens (run maxLen (initSys wr thr recs) sched)).insertionSort
        (fun a b => b ≤ a)).Perm
        (admittedLens (run maxLen (initSys wr thr recs) sched)) :=
      List.perm_insertionSort _ _
    constructor
    · constructor
      · intro h
        refine ⟨hok, hcount, ?_⟩
        intro hnil
        rw [hnil] at h
        simp at h
      · rintro ⟨_, _, hnn⟩
        have hcs : (admittedLens (run maxLen (initSys wr thr recs) sched)).insertionSort
            (fun a b => b ≤ a) ≠ [] := by
          intro he
          rw [he] at hperm
          exact hnn hperm.symm.eq_nil
        dsimp only
        simp only [Bool.not_eq_true', List.isEmpty_eq_false]
        exact hcs
    · have hcond : (searchOk && !(decide (count = 0))) = true := by
        simp [hok, hcount]
      rw [hcond]
      simpa using hperm

/-! ## Search aggregator ordering (C5) -/

theorem partition_foldl (p : MatchRec → Bool) :
    ∀ (l : List MatchRec) (acc1 acc2 : List MatchRec),
      l.foldl (fun (acc : List MatchRec × List MatchRec) r =>
          if p r then (acc.1 ++ [r], acc.2) else (acc.1, acc.2 ++ [r])) (acc1, acc2) =
        (acc1 ++ l.filter p, acc2 ++ l.filter (fun r => !(p r))) := by
  intro l
  induction l with
  | nil => intro acc1 acc2; simp
  | cons x xs ih =>
    intro acc1 acc2
    by_cases hx : p x = true
    · simp only [List.foldl_cons, hx, if_true, List.filter_cons]
      rw [ih]
      simp [hx]
    · have hx2 : p x = false := by simpa using hx
      simp only [List.foldl_cons, hx2, Bool.false_eq_true, if_false, List.filter_cons]
      rw [ih]
      simp [hx2]

theorem sortCombinedResults_eq (records : List MatchRec) :
    sortCombinedResults records =
      (records.insertionSort byMatchesDesc).filter pathPriority ++
        (records.insertionSort byMatchesDesc).filter (fun r => !(pathPriority r)) := by
  unfold sortCombinedResults
  by_cases he : records.isEmpty = true
  · rw [if_pos he]
    have h0 : records = [] := List.isEmpty_iff.mp he
    subst h0
    simp [List.insertionSort]
  · rw [if_neg he]
    dsimp only
    rw [partition_foldl pathPriority (records.insertionSort byMatchesDesc) [] []]
    simp

/-- C5 (amended): `search_repositories` first stable-sorts by match count
descending, then the path-priority regrouping moves every record whose query
occurs in its own path ahead of all records for which it does not, across the
whole list and not only within match-count ties; each of the two groups keeps
the descending match-count order internally, and the output is a permutation
of the input records. -/
theorem search_ordering_c5 (records : List MatchRec) :
    sortCombinedResults records =
      (records.insertionSort byMatchesDesc).filter pathPriority ++
        (records.insertionSort byMatchesDesc).filter (fun r => !(pathPriority r)) ∧
    (sortCombinedResults records).Perm records ∧
    List.Sorted byMatchesDesc
      ((records.insertionSort byMatchesDesc).filter pathPriority) ∧
    List.Sorted byMatchesDesc
      ((records.insertionSort byMatchesDesc).filter (fun r => !(pathPriority r))) := by
  have hsorted := List.sorted_insertionSort byMatchesDesc records
  refine ⟨sortCombinedResults_eq records, ?_, ?_, ?_⟩
  · rw [sortCombinedResults_eq records]
    exact (List.filter_append_perm pathPriority _).trans
      (List.perm_insertionSort byMatchesDesc records)
  · exact hsorted.filter _
  · exact hsorted.filter _

/-- C5 counterexample to the claim as stated: for query `Parser`, the record
with 2 matches and a path containing `Parser` is placed before the record
with 5 matches and a non-matching path, so the regrouping does override the
match-count sort. -/
theorem search_ordering_c5_counterexample :
    sortCombinedResults
        [MatchRec.mk "src/Parser.go" 2 "Parser", MatchRec.mk "src/util.go" 5 "Parser"] =
      [MatchRec.mk "src/Parser.go" 2 "Parser", MatchRec.mk "src/util.go" 5 "Parser"] ∧
    (2 : Nat) < 5 := by
  refine ⟨by decide, by decide⟩

/-! ## Deep-research keyword deduplication (C7) -/

theorem iterNew_fold (visited : List String) :
    ∀ (props acc : List String), acc.Nodup → (∀ k ∈ acc, k ∉ visited) →
      (props.foldl
          (fun acc k => if k ∈ visited ∨ k ∈ acc then acc else acc ++ [k]) acc).Nodup ∧
      ∀ k ∈ props.foldl
          (fun acc k => if k ∈ visited ∨ k ∈ acc then acc else acc ++ [k]) acc,
        k ∉ visited := by
  intro props
  induction props with
  | nil =>
    intro acc h1 h2
    exact ⟨h1, h2⟩
  | cons p ps ih =>
    intro acc h1 h2
    simp only [List.foldl_cons]
    by_cases hp : p ∈ visited ∨ p ∈ acc
    · rw [if_pos hp]
      exact ih acc h1 h2
    · rw [if_neg hp]
      push_neg at hp
      refine ih (acc ++ [p]) ?_ ?_
      · rw [List.nodup_append]
        refine ⟨h1, List.nodup_singleton p, ?_⟩
        intro a ha hb
        rw [List.mem_singleton] at hb
        subst hb
        exact hp.2 ha
      · intro k hk
        rcases List.mem_append.mp hk with hk | hk
        · exact h2 k hk
        · rw [List.mem_singleton] at hk
          subst hk
          exact hp.1

theorem iterNew_all_visited (visited props : List String)
    (h : ∀ k ∈ props, k ∈ visited) : iterNew visited props = [] := by
  unfold iterNew
  have haux : ∀ (l : List String), (∀ k ∈ l, k ∈ visited) → ∀ acc : List String,
      l.foldl (fun acc k => if k ∈ visited ∨ k ∈ acc then acc else acc ++ [k]) acc
        = acc := by
    intro l
    induction l with
    | nil => intro _ acc; rfl
    | cons p ps ih =>
      intro hl acc
      simp only [List.foldl_cons]
      rw [if_pos (Or.inl (hl p (List.mem_cons_self p ps)))]
      exact ih (fun k hk => hl k (List.mem_cons_of_mem p hk)) acc
  exact haux props h []

theorem researchLoop_nodup (oracle : List (List String)) :
    ∀ visited : List String, (researchLoop oracle visited).Nodup ∧
      ∀ k ∈ researchLoop oracle visited, k ∉ visited := by
  induction oracle with
  | nil => intro visited; simp [researchLoop]
  | cons props rest ih =>
    intro visited
    unfold researchLoop
    by_cases hpe : props.isEmpty = true
    · rw [if_pos hpe]
      simp
    · rw [if_neg hpe]
      dsimp only
      by_cases hke : (iterNew visited props).isEmpty = true
      · rw [if_pos hke]
        simp
      · rw [if_neg hke]
        have h1 := iterNew_fold visited props [] (List.nodup_nil) (by simp)
        have h2 := ih (visited ++ iterNew visited props)
        constructor
        · rw [List.nodup_append]
          refine ⟨h1.1, h2.1, ?_⟩
          intro a ha hb
          exact h2.2 a hb (List.mem_append.mpr (Or.inr ha))
        · intro k hk
          rcases List.mem_append.mp hk with hk | hk
          · exact h1.2 k hk
          · intro hv
            exact h2.2 k hk (List.mem_append.mpr (Or.inl hv))

/-- C7: across one research session no keyword is searched twice (the trace
of searched keywords has no duplicate, whatever keyword lists gap analysis
proposes in each round), and a round whose proposals are all already visited
searches nothing and terminates the loop at once, so the session proceeds
directly to final synthesis. -/
theorem keyword_dedup_c7 :
    (∀ oracle : List (List String), (researchLoop oracle []).Nodup) ∧
    (∀ (props : List String) (rest : List (List String)) (visited : List String),
        (∀ k ∈ props, k ∈ visited) → researchLoop (props :: rest) visited = []) := by
  constructor
  · intro oracle
    exact (researchLoop_nodup oracle []).1
  · intro props rest visited h
    unfold researchLoop
    by_cases hpe : props.isEmpty = true
    · rw [if_pos hpe]
    · rw [if_neg hpe]
      dsimp only
      rw [iterNew_all_visited visited props h]
      simp

/-- Witness for C7 at the spec scenario: round 2 proposes `TokenCache` again
after round 1 already searched it, so the loop searches nothing and stops. -/
theorem keyword_dedup_c7_witness :
    researchLoop [["TokenCache"]] ["TokenCache"] = [] :=
  keyword_dedup_c7.2 ["TokenCache"] [] ["TokenCache"] (by decide)

/-! ## Gap-analysis keyword selection (C8) -/

/-- C8 counterexample to the claim as stated: the code filter rejects only
the space character, so the keyword containing a tab (which is whitespace) is
selected, while the selection worded by the spec rejects it. -/
theorem keyword_selection_c8_counterexample :
    topRelevanceKeywords [KWItem.mk "a\tb" 9] 3 = [KWItem.mk "a\tb" 9] ∧
    specTopRelevanceKeywords [KWItem.mk "a\tb" 9] 3 = [] ∧
    ("a\tb".toList.any Char.isWhitespace) = true := by
  refine ⟨by decide, by decide, by decide⟩

/-- C8 (amended): the keyword list used for searching is the gap-analysis
candidates filtered to relevance at least 8 and to keywords containing no
space character (other whitespace such as tabs is not rejected), sorted by
relevance descending, truncated to at most the top 3 (`topN`): the selection
has at most `topN` items, each selected item is a candidate that satisfies
the filter, the selection is sorted descending, and when at most `topN`
candidates satisfy the filter every such candidate is selected. -/
theorem keyword_selection_c8 (results : List KWItem) (topN : Nat) :
    (topRelevanceKeywords results topN).length ≤ topN ∧
    (∀ x ∈ topRelevanceKeywords results topN,
        x ∈ results ∧ 8 ≤ x.relevance ∧ x.keyword.toList.contains ' ' = false) ∧
    List.Sorted byRelevanceDesc (topRelevanceKeywords results topN) ∧
    ((results.filter (fun i => decide (8 ≤ i.relevance) &&
        !(i.keyword.toList.contains ' '))).length ≤ topN →
      ∀ x ∈ results, 8 ≤ x.relevance → x.keyword.toList.contains ' ' = false →
        x ∈ topRelevanceKeywords results topN) := by
  have hperm := List.perm_insertionSort byRelevanceDesc
    (results.filter (fun i => decide (8 ≤ i.relevance) &&
      !(i.keyword.toList.contains ' ')))
  have hsorted := List.sorted_insertionSort byRelevanceDesc
    (results.filter (fun i => decide (8 ≤ i.relevance) &&
      !(i.keyword.toList.contains ' ')))
  refine ⟨?_, ?_, ?_, ?_⟩
  · unfold topRelevanceKeywords
    exact List.length_take_le topN _
  · intro x hx
    unfold topRelevanceKeywords at hx
    have hx2 := List.mem_of_mem_take hx
    have hx3 := hperm.mem_iff.mp hx2
    have hx4 := List.mem_filter.mp hx3
    refine ⟨hx4.1, ?_, ?_⟩
    · have := hx4.2
      simp only [Bool.and_eq_true, decide_eq_true_eq] at this
      exact this.1
    · have := hx4.2
      simp only [Bool.and_eq_true, Bool.not_eq_true'] at this
      exact this.2
  · unfold topRelevanceKeywords
    exact hsorted.sublist (List.take_sublist topN _)
  · intro hlen x hxr h8 hsp
    unfold topRelevanceKeywords
    have hxf : x ∈ results.filter (fun i => decide (8 ≤ i.relevance) &&
        !(i.keyword.toList.contains ' ')) := by
      rw [List.mem_filter]
      refine ⟨hxr, ?_⟩
      rw [Bool.and_eq_true, Bool.not_eq_true']
      exact ⟨by simpa using h8, hsp⟩
    have hxs := hperm.mem_iff.mpr hxf
    have hall : ((results.filter (fun i => decide (8 ≤ i.relevance) &&
        !(i.keyword.toList.contains ' '))).insertionSort byRelevanceDesc).take topN =
        (results.filter (fun i => decide (8 ≤ i.relevance) &&
          !(i.keyword.toList.contains ' '))).insertionSort byRelevanceDesc := by
      apply List.take_of_length_le
      rw [hperm.length_eq]
      exact hlen
    rw [hall]
    exact hxs

/-- Witness for C8 at a concrete candidate list: the single-word keyword with
relevance 9 is selected while the two-word keyword is filtered out. -/
theorem keyword_selection_c8_witness :
    KWItem.mk "Auth" 9 ∈ topRelevanceKeywords
      [KWItem.mk "Auth" 9, KWItem.mk "bad kw" 10] 3 :=
  (keyword_selection_c8 [KWItem.mk "Auth" 9, KWItem.mk "bad kw" 10] 3).2.2.2
    (by decide) (KWItem.mk "Auth" 9) (by decide) (by decide) (by decide)

/-! ## MemoryCache LRU behaviour (C9) -/

theorem keys_eraseKey (k : String) :
    ∀ (l : List (String × Nat × Nat)), (l.map (fun e => e.1)).Nodup →
      (eraseKey l k).map (fun e => e.1) = (l.map (fun e => e.1)).erase k := by
  intro l
  induction l with
  | nil => intro _; simp [eraseKey]
  | cons e es ih =>
    intro h
    simp only [List.map_cons, List.nodup_cons] at h
    obtain ⟨hne, hnd⟩ := h
    by_cases hk : e.1 = k
    · subst hk
      have h1 : eraseKey (e :: es) e.1 = eraseKey es e.1 := by
        simp [eraseKey]
      have h2 : eraseKey es e.1 = es := by
        apply List.filter_eq_self.mpr
        intro a ha
        simp only [Bool.not_eq_true', beq_eq_false_iff_ne, ne_eq]
        intro heq
        exact hne (List.mem_map.mpr ⟨a, ha, heq⟩)
      rw [h1, h2, List.map_cons, List.erase_cons_head]
    · have h1 : eraseKey (e :: es) k = e :: eraseKey es k := by
        simp [eraseKey, hk]
      rw [h1, List.map_cons, List.map_cons,
        List.erase_cons_tail (by simpa using hk), ih hnd]

theorem find?_key_of_mem (c : MemCache) (k : String) (hmem : k ∈ keysOf c) :
    ∃ v exp, c.entries.find? (fun e => e.1 == k) = some (k, v, exp) ∧
      (k, v, exp) ∈ c.entries := by
  obtain ⟨e, he, heq⟩ := List.mem_map.mp hmem
  have hsome : (c.entries.find? (fun e => e.1 == k)).isSome = true := by
    rw [List.find?_isSome]
    exact ⟨e, he, by simp [heq]⟩
  obtain ⟨e2, hf⟩ := Option.isSome_iff_exists.mp hsome
  have hp := List.find?_some (p := fun (e : String × Nat × Nat) => e.1 == k) hf
  have he2 : e2.1 = k := by simpa using hp
  obtain ⟨a, v, exp⟩ := e2
  simp only [] at he2
  subst he2
  exact ⟨v, exp, hf, List.mem_of_find?_eq_some hf⟩

theorem memGet_promote (c : MemCache) (k : String) (now : Nat)
    (hnd : (keysOf c).Nodup) (hmem : k ∈ keysOf c)
    (hlive : ∀ e ∈ c.entries, e.1 = k → (e.2.2 = 0 ∨ now < e.2.2)) :
    keysOf (memGet c k now).2 = (keysOf c).erase k ++ [k] ∧
    (memGet c k now).2.entries.length = c.entries.length ∧
    (memGet c k now).2.maxItems = c.maxItems := by
  obtain ⟨v, exp, hf, hin⟩ := find?_key_of_mem c k hmem
  have hliv : exp = 0 ∨ now < exp := hlive (k, v, exp) hin rfl
  have hres : (memGet c k now).2 =
      { c with entries := eraseKey c.entries k ++ [(k, v, exp)] } := by
    unfold memGet
    rw [hf]
    dsimp only
    rw [if_pos hliv]
  rw [hres]
  have hkeys : keysOf { c with entries := eraseKey c.entries k ++ [(k, v, exp)] } =
      (keysOf c).erase k ++ [k] := by
    unfold keysOf
    dsimp only
    rw [List.map_append, keys_eraseKey k c.entries hnd]
    rfl
  refine ⟨hkeys, ?_, rfl⟩
  have hl1 : (keysOf { c with entries := eraseKey c.entries k ++ [(k, v, exp)] }).length
      = ((keysOf c).erase k ++ [k]).length := by rw [hkeys]
  have hl2 : (keysOf c).length = c.entries.length := List.length_map _ _
  have hl3 : ((keysOf c).erase k).length = (keysOf c).length - 1 :=
    List.length_erase_of_mem hmem
  have hl4 : 0 < (keysOf c).length := List.length_pos_of_mem hmem
  have hl5 : (keysOf { c with entries := eraseKey c.entries k ++ [(k, v, exp)] }).length
      = (eraseKey c.entries k ++ [(k, v, exp)]).length := List.length_map _ _
  have hl6 : (eraseKey c.entries k).length = ((keysOf c).erase k).length := by
    have hke := keys_eraseKey k c.entries hnd
    calc (eraseKey c.entries k).length
        = ((eraseKey c.entries k).map (fun e => e.1)).length :=
          (List.length_map _ _).symm
      _ = ((keysOf c).erase k).length := by rw [hke]; rfl
  dsimp only
  simp only [List.length_append, List.length_singleton] at hl1 hl5 ⊢
  omega

theorem memExists_snd_eq (c : MemCache) (k : String) (now : Nat) :
    (memExists c k now).2 = (memGet c k now).2 := by
  unfold memExists memGet
  cases hf : c.entries.find? (fun e => e.1 == k) with
  | none => rfl
  | some e =>
    obtain ⟨a, v, exp⟩ := e
    dsimp only
    by_cases h : exp = 0 ∨ now < exp
    · rw [if_pos h, if_pos h]
    · rw [if_neg h, if_neg h]

theorem memSet_existing (c : MemCache) (k : String) (v : Nat) (ttl : Int) (now : Nat)
    (hnd : (keysOf c).Nodup) (hmem : k ∈ keysOf c) :
    keysOf (memSet c k v ttl now).2 = (keysOf c).erase k ++ [k] := by
  obtain ⟨v0, exp0, hf, _⟩ := find?_key_of_mem c k hmem
  have hsome : (c.entries.find? (fun e => e.1 == k)).isSome = true := by
    rw [hf]; rfl
  unfold memSet
  rw [if_pos hsome]
  unfold keysOf
  dsimp only
  rw [List.map_append, keys_eraseKey k c.entries hnd]
  rfl

theorem memSet_fresh (c : MemCache) (key : String) (v : Nat) (ttl : Int) (now : Nat)
    (hfresh : key ∉ keysOf c) (hfull : c.maxItems ≤ c.entries.length) :
    keysOf (memSet c key v ttl now).2 = (keysOf c).tail ++ [key] := by
  have hnone : c.entries.find? (fun e => e.1 == key) = none := by
    rw [List.find?_eq_none]
    intro e he hbe
    exact hfresh (List.mem_map.mpr ⟨e, he, by simpa using hbe⟩)
  unfold memSet
  rw [if_neg (by rw [hnone]; simp)]
  dsimp only
  rw [if_pos hfull]
  unfold keysOf
  dsimp only
  rw [List.map_append, List.map_tail]
  rfl

/-- C9 (amended): for a `MemoryCache` holding exactly `max_items` entries
with distinct keys, inserting one more distinct key evicts exactly the least
recently used (front) key; `get`, `exists` and `set` on an existing unexpired
key move it to the most-recently-used end; and provided the capacity is at
least 2, a `get` of a key immediately before such an insertion protects that
key from the eviction (at capacity 1 the accessed key is itself the only,
hence least recently used, entry and is evicted, see the counterexample). -/
theorem lru_eviction_c9 (c : MemCache) (k newKey : String) (v v2 : Nat)
    (ttl ttl2 : Int) (now : Nat)
    (hnd : (keysOf c).Nodup) (hfull : c.entries.length = c.maxItems)
    (hmem : k ∈ keysOf c) (hfresh : newKey ∉ keysOf c)
    (hlive : ∀ e ∈ c.entries, e.1 = k → (e.2.2 = 0 ∨ now < e.2.2))
    (hcap : 2 ≤ c.maxItems) :
    keysOf (memSet c newKey v ttl now).2 = (keysOf c).tail ++ [newKey] ∧
    keysOf (memGet c k now).2 = (keysOf c).erase k ++ [k] ∧
    keysOf (memExists c k now).2 = (keysOf c).erase k ++ [k] ∧
    keysOf (memSet c k v2 ttl2 now).2 = (keysOf c).erase k ++ [k] ∧
    k ∈ keysOf (memSet (memGet c k now).2 newKey v ttl now).2 := by
  obtain ⟨hg1, hg2, hg3⟩ := memGet_promote c k now hnd hmem hlive
  refine ⟨memSet_fresh c newKey v ttl now hfresh (le_of_eq hfull.symm),
    hg1, ?_, memSet_existing c k v2 ttl2 now hnd hmem, ?_⟩
  · rw [memExists_snd_eq]
    exact hg1
  · have hklen : (keysOf c).length = c.entries.length := List.length_map _ _
    have herlen : ((keysOf c).erase k).length = (keysOf c).length - 1 :=
      List.length_erase_of_mem hmem
    have hernn : (keysOf c).erase k ≠ [] := by
      apply List.ne_nil_of_length_pos
      omega
    have hfresh1 : newKey ∉ keysOf (memGet c k now).2 := by
      rw [hg1]
      intro hmem1
      rcases List.mem_append.mp hmem1 with h | h
      · exact hfresh (List.erase_subset k (keysOf c) h)
      · rw [List.mem_singleton] at h
        subst h
        exact hfresh hmem
    have hfull1 : (memGet c k now).2.maxItems ≤ (memGet c k now).2.entries.length := by
      rw [hg2, hg3, hfull]
    have hset := memSet_fresh (memGet c k now).2 newKey v ttl now hfresh1 hfull1
    rw [hset, hg1, List.tail_append_of_ne_nil hernn]
    exact List.mem_append.mpr (Or.inl (List.mem_append.mpr (Or.inr (by simp))))

/-- C9 counterexample to the claim as stated at capacity 1: the cache holds
exactly one entry `a`, a `get` of `a` succeeds right before inserting the
distinct key `b`, yet `a` is evicted: the accessed key is not protected. -/
theorem lru_eviction_c9_counterexample :
    keysOf (MemCache.mk [("a", 1, 0)] 1) = ["a"] ∧
    (memGet (MemCache.mk [("a", 1, 0)] 1) "a" 0).1 = some 1 ∧
    keysOf (memSet ((memGet (MemCache.mk [("a", 1, 0)] 1) "a" 0).2)
      "b" 2 3600 0).2 = ["b"] := by
  refine ⟨by decide, by decide, by decide⟩

/-- Witness for C9 at a concrete capacity-2 cache: the front key `a` is
promoted by `get` and survives the insertion of `c`, which evicts `b`. -/
theorem lru_eviction_c9_witness :
    keysOf (memSet (MemCache.mk [("a", 1, 0), ("b", 2, 0)] 2) "c" 5 10 0).2 =
      (keysOf (MemCache.mk [("a", 1, 0), ("b", 2, 0)] 2)).tail ++ ["c"] ∧
    keysOf (memGet (MemCache.mk [("a", 1, 0), ("b", 2, 0)] 2) "a" 0).2 =
      (keysOf (MemCache.mk [("a", 1, 0), ("b", 2, 0)] 2)).erase "a" ++ ["a"] ∧
    keysOf (memExists (MemCache.mk [("a", 1, 0), ("b", 2, 0)] 2) "a" 0).2 =
      (keysOf (MemCache.mk [("a", 1, 0), ("b", 2, 0)] 2)).erase "a" ++ ["a"] ∧
    keysOf (memSet (MemCache.mk [("a", 1, 0), ("b", 2, 0)] 2) "a" 7 20 0).2 =
      (keysOf (MemCache.mk [("a", 1, 0), ("b", 2, 0)] 2)).erase "a" ++ ["a"] ∧
    "a" ∈ keysOf (memSet (memGet (MemCache.mk [("a", 1, 0), ("b", 2, 0)] 2) "a" 0).2
      "c" 5 10 0).2 :=
  lru_eviction_c9 (MemCache.mk [("a", 1, 0), ("b", 2, 0)] 2) "a" "c" 5 7 10 20 0
    (by decide) (by decide) (by decide) (by decide) (by decide) (by decide)

/-! ## Tiered cache failure semantics (C3) -/

theorem find?_key_append (pre : List (String × Nat × Nat)) (k : String)
    (v exp : Nat) (h : ∀ e ∈ pre, (e.1 == k) = false) :
    (pre ++ [(k, v, exp)]).find? (fun e => e.1 == k) = some (k, v, exp) := by
  rw [List.find?_append]
  have h1 : pre.find? (fun e => e.1 == k) = none := by
    rw [List.find?_eq_none]
    intro x hx
    simp [h x hx]
  rw [h1]
  simp [List.find?_cons]

theorem expiryOf_live (now : Nat) (ttl : Int) :
    expiryOf now ttl = 0 ∨ now < expiryOf now ttl := by
  unfold expiryOf
  by_cases ht : ttl ≤ 0
  · rw [if_pos ht]
    exact Or.inl rfl
  · rw [if_neg ht]
    right
    omega

theorem memGet_memSet (c : MemCache) (k : String) (v : Nat) (ttl : Int) (now : Nat) :
    (memGet (memSet c k v ttl now).2 k now).1 = some v := by
  have hget : ∀ (pre : List (String × Nat × Nat)), (∀ e ∈ pre, (e.1 == k) = false) →
      (memGet { entries := pre ++ [(k, v, expiryOf now ttl)], maxItems := c.maxItems }
        k now).1 = some v := by
    intro pre hp
    unfold memGet
    dsimp only
    rw [find?_key_append pre k v (expiryOf now ttl) hp]
    dsimp only
    rw [if_pos (expiryOf_live now ttl)]
  unfold memSet
  by_cases hf : (c.entries.find? (fun e => e.1 == k)).isSome = true
  · rw [if_pos hf]
    apply hget
    intro e he
    have := (List.mem_filter.mp he).2
    simpa using this
  · rw [if_neg hf]
    dsimp only
    have hnone : c.entries.find? (fun e => e.1 == k) = none := by
      cases hv : c.entries.find? (fun e => e.1 == k) with
      | none => rfl
      | some e => rw [hv] at hf; simp at hf
    have hnotin : ∀ e ∈ c.entries, (e.1 == k) = false := by
      intro e he
      have := List.find?_eq_none.mp hnone e he
      simpa using this
    by_cases hl : c.maxItems ≤ c.entries.length
    · rw [if_pos hl]
      apply hget
      intro e he
      exact hnotin e (List.tail_subset c.entries he)
    · rw [if_neg hl]
      exact hget c.entries hnotin

/-- C3 counterexample to the claim as stated: a `TieredCache.set` whose local
tier succeeds while the Redis tier returns failure makes the whole call
return failure, although only one tier failed. -/
theorem tiered_failure_c3_counterexample :
    (memSet (MemCache.mk [] 30000) "k" 1 (jitterTtl 10 0) 0).1 = true ∧
    (tieredSet (MemCache.mk [] 30000) "k" 1 10 0 0 (some (Except.ok false))).1 =
      Except.ok false := by
  exact ⟨by decide, by rfl⟩

/-- C3 (amended): `TieredCache.set` returns the conjunction of the two tier
outcomes (so a durable-tier failure fails the whole call even when the local
write succeeded), `TieredCache.delete` returns their disjunction, and a
durable-tier exception propagates uncaught out of `set` and `delete` while
the local mutation has already been applied: after an erroring `set`, a
local read still returns the value just written. -/
theorem tiered_failure_c3 (mem : MemCache) (key : String) (v : Nat)
    (ttl jitter : Int) (now : Nat) (b : Bool) :
    (tieredSet mem key v ttl jitter now (some (Except.ok b))).1 =
      Except.ok ((memSet mem key v (jitterTtl ttl jitter) now).1 && b) ∧
    (tieredSet mem key v ttl jitter now (some (Except.error ()))).1 =
      Except.error () ∧
    (tieredSet mem key v ttl jitter now (some (Except.error ()))).2 =
      (memSet mem key v (jitterTtl ttl jitter) now).2 ∧
    (memGet (tieredSet mem key v ttl jitter now (some (Except.error ()))).2
      key now).1 = some v ∧
    (tieredDelete mem key (some (Except.ok b))).1 =
      Except.ok ((memDelete mem key).1 || b) ∧
    (tieredDelete mem key (some (Except.error ()))).1 = Except.error () ∧
    (tieredDelete mem key (some (Except.error ()))).2 = (memDelete mem key).2 := by
  have hset : ∀ redis, tieredSet mem key v ttl jitter now redis =
      ((match redis with
        | none => Except.ok (memSet mem key v (jitterTtl ttl jitter) now).1
        | some (Except.ok b2) =>
            Except.ok ((memSet mem key v (jitterTtl ttl jitter) now).1 && b2)
        | some (Except.error e) => Except.error e),
        (memSet mem key v (jitterTtl ttl jitter) now).2) := by
    intro redis
    unfold tieredSet
    cases hm : memSet mem key v (jitterTtl ttl jitter) now with
    | mk localOk mem2 =>
      cases redis with
      | none => simp [hm]
      | some r =>
        cases r with
        | ok b2 => simp [hm]
        | error e => simp [hm]
  have hdel : ∀ redis, tieredDelete mem key redis =
      ((match redis with
        | none => Except.ok (memDelete mem key).1
        | some (Except.ok b2) => Except.ok ((memDelete mem key).1 || b2)
        | some (Except.error e) => Except.error e),
        (memDelete mem key).2) := by
    intro redis
    unfold tieredDelete
    cases hm : memDelete mem key with
    | mk localOk mem2 =>
      cases redis with
      | none => simp [hm]
      | some r =>
        cases r with
        | ok b2 => simp [hm]
        | error e => simp [hm]
  refine ⟨?_, ?_, ?_, ?_, ?_, ?_, ?_⟩
  · rw [hset]
  · rw [hset]
  · rw [hset]
  · rw [hset]
    exact memGet_memSet mem key v (jitterTtl ttl jitter) now
  · rw [hdel]
  · rw [hdel]
  · rw [hdel]

/-! ## SSE event stream shape (C6) -/

/-- C6 counterexample to the claim as stated: the stream produced for a
deep-research call with no progress events and no content chunks consists of
the single final record of `stream_chat_async`, whose `data` object carries
no `message` field, although its `done` field is `true`. -/
theorem event_stream_c6_counterexample :
    deepResearchStream [] [] none = [streamFinalRecord] ∧
    dataField streamFinalRecord "message" = none ∧
    dataField streamFinalRecord "done" = some (JVal.jbool true) :=
  ⟨rfl, rfl, rfl⟩

/-- C6 (amended): every record of the produced event stream is a JSON object
with an `event` field and a `data` object containing `content` and `done`;
the progress records built by `format_sse_response` additionally carry
`message` (the chunk records of `stream_chat_async` do not); and the stream
is terminated by a record whose `data.done` is `true`, also when the chat
stream raises. -/
theorem event_stream_c6 (progressMsgs chunks : List String) (err : Option String) :
    (∀ r ∈ deepResearchStream progressMsgs chunks err,
        (jGet r "event").isSome = true ∧ (dataField r "content").isSome = true ∧
        (dataField r "done").isSome = true) ∧
    (∀ m ∈ progressMsgs,
        dataField (formatSseResponse "processing" "" m false) "message" =
          some (JVal.jstr m)) ∧
    (deepResearchStream progressMsgs chunks err).getLast?.map
      (fun r => dataField r "done") = some (some (JVal.jbool true)) := by
  refine ⟨?_, ?_, ?_⟩
  · intro r hr
    unfold deepResearchStream at hr
    rcases List.mem_append.mp hr with hr | hr
    · obtain ⟨m, _, rfl⟩ := List.mem_map.mp hr
      exact ⟨rfl, rfl, rfl⟩
    · unfold streamChatAsync at hr
      cases err with
      | none =>
        rcases List.mem_append.mp hr with hr | hr
        · obtain ⟨ch, _, rfl⟩ := List.mem_map.mp hr
          exact ⟨rfl, rfl, rfl⟩
        · rw [List.mem_singleton] at hr
          subst hr
          exact ⟨rfl, rfl, rfl⟩
      | some e =>
        rcases List.mem_append.mp hr with hr | hr
        · obtain ⟨ch, _, rfl⟩ := List.mem_map.mp hr
          exact ⟨rfl, rfl, rfl⟩
        · rw [List.mem_singleton] at hr
          subst hr
          exact ⟨rfl, rfl, rfl⟩
  · intro m _
    rfl
  · unfold deepResearchStream streamChatAsync
    cases err with
    | none =>
      rw [List.getLast?_append, List.getLast?_append, List.getLast?_singleton]
      rfl
    | some e =>
      rw [List.getLast?_append, List.getLast?_append, List.getLast?_singleton]
      rfl

/-- Witness for C6 at a concrete stream with one progress record and one
chunk: the last record carries `done = true`. -/
theorem event_stream_c6_witness :
    (deepResearchStream ["Starting deep research process..."] ["answer"]
      none).getLast?.map (fun r => dataField r "done") =
      some (some (JVal.jbool true)) :=
  (event_stream_c6 ["Starting deep research process..."] ["answer"] none).2.2

/-- Witness for C4 at a concrete successful call: search succeeded with one
admissible record, so the pipeline reports success and its contents are the
admitted lengths. -/
theorem pipeline_failure_c4_witness :
    ((pipelineCall true 1 100 false 7 [FileRec.mk true 10 9] [0, 0, 0]).ok = true ↔
      (true = true ∧ (1 : Nat) ≠ 0 ∧
        admittedLens (run 100 (initSys false 7 [FileRec.mk true 10 9]) [0, 0, 0]) ≠ [])) ∧
    (pipelineCall true 1 100 false 7 [FileRec.mk true 10 9] [0, 0, 0]).contents.Perm
      (if true && !(decide ((1 : Nat) = 0)) then
        admittedLens (run 100 (initSys false 7 [FileRec.mk true 10 9]) [0, 0, 0])
      else []) :=
  pipeline_failure_c4 true 1 100 false 7 [FileRec.mk true 10 9] [0, 0, 0]

end Adocag
